import Mathlib

/-!
Verification development for the HWPX document split/merge tool (`src/main.py`).

The program stores documents as zip archives whose primary content lives in the
member `Contents/section0.xml`.  The shallow embedding below models:

* XML element trees in the style of Python's `xml.etree.ElementTree`
  (`Element`, `ElementTree`), including `itertext`, `copy.deepcopy`
  (with an allocation counter standing for object identity) and the
  `ET.tostring` serializer;
* zip archives as ordered lists of entries with metadata, with the
  compression codec (zlib) treated as an abstract parameter satisfying the
  decompress-after-compress round-trip law;
* the XML parser (expat) as an abstract parameter;
* the five core functions `extract_hwpx_xml`, `split_by_template`,
  `create_section_tree`, `create_section_hwpx`, `process_file` and
  `merge_hwpx_files`, with logging and filesystem writes made explicit in
  the returned result records.

Byte strings are modeled as `List Nat` (one value per byte / code point);
serialized XML text is converted with `Char.toNat`, which is injective, so
byte-level equalities are faithfully represented.
-/

/-! ## XML element trees (model of `xml.etree.ElementTree`) -/

mutual

/-- Model of an `ElementTree.Element`: `oid` stands for the Python object
identity (its address), `tag` and `attrib` are the tag name and attribute
dictionary (key order = insertion order), `text` is the text before the first
child, `children` the ordered child elements, `tail` the text following this
element's end tag. -/
inductive Element where
  | mk (oid : Nat) (tag : String) (attrib : List (String × String))
       (text : Option String) (children : ElemList) (tail : Option String)
deriving DecidableEq

/-- Ordered list of child elements (mutually defined with `Element`). -/
inductive ElemList where
  | nil
  | cons (hd : Element) (tl : ElemList)
deriving DecidableEq

end

namespace Element

def oid : Element → Nat
  | .mk i _ _ _ _ _ => i

def tag : Element → String
  | .mk _ t _ _ _ _ => t

def attrib : Element → List (String × String)
  | .mk _ _ a _ _ _ => a

def text : Element → Option String
  | .mk _ _ _ t _ _ => t

def children : Element → ElemList
  | .mk _ _ _ _ c _ => c

def tail : Element → Option String
  | .mk _ _ _ _ _ t => t

end Element

namespace ElemList

/-- Conversion to an ordinary Lean list, modelling Python's `list(root)`. -/
def toList : ElemList → List Element
  | .nil => []
  | .cons e tl => e :: toList tl

/-- Conversion from an ordinary Lean list (used to build new elements whose
children were accumulated in a Python list). -/
def ofList : List Element → ElemList
  | [] => .nil
  | e :: tl => .cons e (ofList tl)

def isNil : ElemList → Bool
  | .nil => true
  | .cons _ _ => false

end ElemList

theorem ElemList.toList_ofList (l : List Element) : (ElemList.ofList l).toList = l := by
  induction l with
  | nil => rfl
  | cons e tl ih => simp [ElemList.ofList, ElemList.toList, ih]

/-- Model of an `ElementTree.ElementTree`: a wrapper around the root element. -/
structure ElementTree where
  root : Element
deriving DecidableEq

def ElementTree.getroot (t : ElementTree) : Element := t.root

/-- Truthiness of an optional string in Python: `None` and `""` are falsy. -/
def optTrue : Option String → Bool
  | none => false
  | some s => !s.isEmpty

/-- Contribution of an optional string to a text concatenation (`None` and
`""` both contribute nothing). -/
def optStr : Option String → String
  | none => ""
  | some s => s

mutual

/-- Model of `''.join(elem.itertext())`: the element's `text`, then for every
child in order its own `itertext` followed by the child's `tail`. -/
def Element.itertext : Element → String
  | .mk _ _ _ t c _ => optStr t ++ ElemList.itertextList c

def ElemList.itertextList : ElemList → String
  | .nil => ""
  | .cons e tl => Element.itertext e ++ optStr e.tail ++ ElemList.itertextList tl

end

/-- Model of Python's substring test `template in page_text` (case-sensitive
containment of `template` in the concatenated descendant text). -/
def containsTemplate (template : String) (page : Element) : Bool :=
  decide (template.toList <:+: (Element.itertext page).toList)

/-! ## Page segmentation (`split_by_template`) -/

/-- Model of the `for page in pages` loop of `split_by_template`, threading the
state `(sections, current_section)` exactly as the Python loop does. -/
def splitLoop (p : Element → Bool) :
    List Element → List (List Element) → List Element → List (List Element) × List Element
  | [], sections, current => (sections, current)
  | page :: rest, sections, current =>
    if p page then
      splitLoop p rest (if current.isEmpty then sections else sections ++ [current]) [page]
    else
      splitLoop p rest sections (if current.isEmpty then current else current ++ [page])

/-- Model of `split_by_template(tree, template, skip_pages)`: drop the first
`skip_pages` children of the root, then group the remaining pages into
sections, a page containing `template` starting a new section. -/
def split_by_template (tree : ElementTree) (template : String) (skip_pages : Nat) :
    List (List Element) :=
  let root := tree.getroot
  let pages := root.children.toList
  let pages := pages.drop skip_pages
  let (sections, current) := splitLoop (containsTemplate template) pages [] []
  if current.isEmpty then sections else sections ++ [current]

/-- Recursive flush-style reformulation of the segmentation loop, used as the
proof vehicle; `splitGo p pages current` returns the final list of sections
given the pending open section `current`. -/
def splitGo (p : Element → Bool) : List Element → List Element → List (List Element)
  | [], current => if current.isEmpty then [] else [current]
  | page :: rest, current =>
    if p page then
      (if current.isEmpty then [] else [current]) ++ splitGo p rest [page]
    else
      splitGo p rest (if current.isEmpty then current else current ++ [page])

/-- Closing the loop state: append the still-open section if non-empty. -/
def splitFinish (st : List (List Element) × List Element) : List (List Element) :=
  if st.2.isEmpty then st.1 else st.1 ++ [st.2]

theorem splitLoop_eq_go (p : Element → Bool) (pages : List Element) :
    ∀ (sections : List (List Element)) (current : List Element),
      splitFinish (splitLoop p pages sections current) = sections ++ splitGo p pages current := by
  induction pages with
  | nil =>
    intro sections current
    by_cases h : current.isEmpty <;> simp [splitLoop, splitGo, splitFinish, h]
  | cons page rest ih =>
    intro sections current
    by_cases hp : p page
    · by_cases h : current.isEmpty <;>
        simp [splitLoop, splitGo, hp, h, ih, List.append_assoc]
    · simp [splitLoop, splitGo, hp, ih]

theorem split_by_template_eq_go (tree : ElementTree) (template : String) (skip_pages : Nat) :
    split_by_template tree template skip_pages =
      splitGo (containsTemplate template) ((tree.getroot.children.toList).drop skip_pages) [] := by
  have h := splitLoop_eq_go (containsTemplate template)
    ((tree.getroot.children.toList).drop skip_pages) [] []
  simpa [split_by_template, splitFinish] using h

theorem splitGo_flatten_of_ne_nil (p : Element → Bool) (pages : List Element) :
    ∀ current : List Element, current ≠ [] →
      (splitGo p pages current).flatten = current ++ pages := by
  induction pages with
  | nil =>
    intro current hc
    simp [splitGo, List.isEmpty_iff, hc]
  | cons page rest ih =>
    intro current hc
    by_cases hp : p page
    · have h1 : splitGo p (page :: rest) current =
          [current] ++ splitGo p rest [page] := by
        simp [splitGo, hp, List.isEmpty_iff, hc]
      rw [h1]
      simp [ih [page] (by simp)]
    · have h1 : splitGo p (page :: rest) current = splitGo p rest (current ++ [page]) := by
        simp [splitGo, hp, List.isEmpty_iff, hc]
      rw [h1, ih (current ++ [page]) (by simp)]
      simp

theorem splitGo_flatten_nil (p : Element → Bool) (pages : List Element) :
    (splitGo p pages []).flatten = pages.dropWhile (fun pg => !p pg) := by
  induction pages with
  | nil => simp [splitGo]
  | cons page rest ih =>
    by_cases hp : p page
    · have h1 : splitGo p (page :: rest) [] = splitGo p rest [page] := by
        simp [splitGo, hp]
      rw [h1, splitGo_flatten_of_ne_nil p rest [page] (by simp), List.dropWhile_cons]
      simp [hp]
    · have h1 : splitGo p (page :: rest) [] = splitGo p rest [] := by
        simp [splitGo, hp]
      rw [h1, ih, List.dropWhile_cons]
      simp [hp]

/-- Pages of the returned sections, concatenated, are exactly the post-skip
pages with the prefix of non-matching pages removed. -/
theorem split_by_template_flatten (tree : ElementTree) (template : String) (skip_pages : Nat) :
    (split_by_template tree template skip_pages).flatten =
      ((tree.getroot.children.toList).drop skip_pages).dropWhile
        (fun pg => !containsTemplate template pg) := by
  rw [split_by_template_eq_go, splitGo_flatten_nil]

/-- Well-formedness of a single returned section: non-empty, first page
matches the template, later pages do not. -/
def SecOK (p : Element → Bool) (s : List Element) : Prop :=
  s ≠ [] ∧ (∀ h, s.head? = some h → p h = true) ∧ (∀ pg ∈ s.tail, p pg = false)

theorem splitGo_sections_ok (p : Element → Bool) (pages : List Element) :
    ∀ current : List Element, (current = [] ∨ SecOK p current) →
      ∀ s ∈ splitGo p pages current, SecOK p s := by
  induction pages with
  | nil =>
    intro current hc s hs
    rcases hc with hc | hc
    · subst hc; simp [splitGo] at hs
    · rcases hc with ⟨hne, _, _⟩
      simp [splitGo, List.isEmpty_iff, hne] at hs
      subst hs; exact ⟨hne, by tauto⟩
  | cons page rest ih =>
    intro current hc s hs
    by_cases hp : p page
    · have hsingle : SecOK p [page] := by
        refine ⟨by simp, ?_, by simp⟩
        intro h hh
        simp at hh; subst hh; exact hp
      rcases hc with hc | hc
      · subst hc
        simp [splitGo, hp] at hs
        exact ih [page] (Or.inr hsingle) s hs
      · rcases hc with ⟨hne, hhead, htail⟩
        simp [splitGo, hp, List.isEmpty_iff, hne] at hs
        rcases hs with hs | hs
        · subst hs; exact ⟨hne, hhead, htail⟩
        · exact ih [page] (Or.inr hsingle) s hs
    · rcases hc with hc | hc
      · subst hc
        simp [splitGo, hp] at hs
        exact ih [] (Or.inl rfl) s hs
      · rcases hc with ⟨hne, hhead, htail⟩
        have hs' : s ∈ splitGo p rest (current ++ [page]) := by
          simpa [splitGo, hp, List.isEmpty_iff, hne] using hs
        refine ih (current ++ [page]) (Or.inr ⟨by simp, ?_, ?_⟩) s hs'
        · intro h hh
          rw [List.head?_append_of_ne_nil current hne] at hh
          exact hhead h hh
        · intro pg hpg
          rw [List.tail_append_of_ne_nil hne] at hpg
          rcases List.mem_append.mp hpg with h | h
          · exact htail pg h
          · simp at h; subst h; simpa using hp

/-- When every page matches the template, the loop produces one singleton
section per page. -/
theorem splitGo_all_true (p : Element → Bool) (pages : List Element)
    (hall : ∀ pg ∈ pages, p pg = true) :
    ∀ current : List Element,
      splitGo p pages current =
        (if current.isEmpty then [] else [current]) ++ pages.map (fun pg => [pg]) := by
  induction pages with
  | nil => intro current; simp [splitGo]
  | cons page rest ih =>
    intro current
    have hp : p page = true := hall page (by simp)
    have hrest : ∀ pg ∈ rest, p pg = true := fun pg h => hall pg (by simp [h])
    simp only [splitGo, hp, if_pos rfl, ih hrest [page]]
    simp

/-- When no page matches the template, the loop starting from an empty current
section returns no sections at all. -/
theorem splitGo_none_true (p : Element → Bool) (pages : List Element)
    (hnone : ∀ pg ∈ pages, p pg = false) :
    splitGo p pages [] = [] := by
  induction pages with
  | nil => simp [splitGo]
  | cons page rest ih =>
    have hp : p page = false := hnone page (by simp)
    have hrest : ∀ pg ∈ rest, p pg = false := fun pg h => hnone pg (by simp [h])
    simp [splitGo, hp, ih hrest]

/-! ## Deep copies, object identities (`copy.deepcopy`) -/

mutual

/-- Model of `copy.deepcopy` on a single element: every node of the copy gets
a fresh object identity drawn from the counter `n` (standing for Python
allocating fresh objects), all other fields are copied structurally.  Returns
the copy together with the next unused identity. -/
def Element.deepcopy (n : Nat) : Element → Element × Nat
  | .mk _ tg a t c tl =>
    let (c', n') := ElemList.deepcopyList (n + 1) c
    (.mk n tg a t c' tl, n')

def ElemList.deepcopyList (n : Nat) : ElemList → ElemList × Nat
  | .nil => (.nil, n)
  | .cons e tl =>
    let (e', n') := Element.deepcopy n e
    let (tl', n'') := ElemList.deepcopyList n' tl
    (.cons e' tl', n'')

end

/-- Model of `copy.deepcopy(pages)` on a Python list of elements: each element
is deep-copied in order, threading the identity counter. -/
def deepcopyPages (n : Nat) : List Element → List Element × Nat
  | [] => ([], n)
  | e :: tl =>
    let (e', n') := Element.deepcopy n e
    let (tl', n'') := deepcopyPages n' tl
    (e' :: tl', n'')

mutual

/-- Object identities of all nodes of an element tree. -/
def Element.ids : Element → List Nat
  | .mk i _ _ _ c _ => i :: ElemList.idsList c

def ElemList.idsList : ElemList → List Nat
  | .nil => []
  | .cons e tl => Element.ids e ++ ElemList.idsList tl

end

/-- Object identities of all nodes of a list of elements. -/
def pagesIds : List Element → List Nat
  | [] => []
  | e :: tl => Element.ids e ++ pagesIds tl

mutual

/-- Erase object identities (set them all to `0`); two elements with equal
erasure are structurally identical as XML data. -/
def Element.erase : Element → Element
  | .mk _ tg a t c tl => .mk 0 tg a t (ElemList.eraseList c) tl

def ElemList.eraseList : ElemList → ElemList
  | .nil => .nil
  | .cons e tl => .cons (Element.erase e) (ElemList.eraseList tl)

end

/-- Erase object identities on a list of elements. -/
def pagesErase (l : List Element) : List Element := l.map Element.erase

mutual

theorem Element.deepcopy_erase (e : Element) :
    ∀ n, (Element.erase (Element.deepcopy n e).1) = Element.erase e := by
  cases e with
  | mk i tg a t c tl =>
    intro n
    simp only [Element.deepcopy, Element.erase]
    rw [ElemList.deepcopyList_erase c (n + 1)]

theorem ElemList.deepcopyList_erase (l : ElemList) :
    ∀ n, (ElemList.eraseList (ElemList.deepcopyList n l).1) = ElemList.eraseList l := by
  cases l with
  | nil => intro n; rfl
  | cons e tl =>
    intro n
    simp only [ElemList.deepcopyList, ElemList.eraseList]
    rw [Element.deepcopy_erase e n, ElemList.deepcopyList_erase tl (Element.deepcopy n e).2]

end

mutual

theorem Element.deepcopy_counter_le (e : Element) :
    ∀ n, n ≤ (Element.deepcopy n e).2 := by
  cases e with
  | mk i tg a t c tl =>
    intro n
    have h := ElemList.deepcopyList_counter_le c (n + 1)
    simp only [Element.deepcopy]
    omega

theorem ElemList.deepcopyList_counter_le (l : ElemList) :
    ∀ n, n ≤ (ElemList.deepcopyList n l).2 := by
  cases l with
  | nil => intro n; simp [ElemList.deepcopyList]
  | cons e tl =>
    intro n
    have h1 := Element.deepcopy_counter_le e n
    have h2 := ElemList.deepcopyList_counter_le tl (Element.deepcopy n e).2
    simp only [ElemList.deepcopyList]
    omega

end

mutual

theorem Element.deepcopy_ids_ge (e : Element) :
    ∀ n i, i ∈ Element.ids (Element.deepcopy n e).1 → n ≤ i := by
  cases e with
  | mk j tg a t c tl =>
    intro n i hi
    simp only [Element.deepcopy, Element.ids, List.mem_cons] at hi
    rcases hi with hi | hi
    · omega
    · have := ElemList.deepcopyList_ids_ge c (n + 1) i hi
      omega

theorem ElemList.deepcopyList_ids_ge (l : ElemList) :
    ∀ n i, i ∈ ElemList.idsList (ElemList.deepcopyList n l).1 → n ≤ i := by
  cases l with
  | nil => intro n i hi; simp [ElemList.deepcopyList, ElemList.idsList] at hi
  | cons e tl =>
    intro n i hi
    simp only [ElemList.deepcopyList, ElemList.idsList, List.mem_append] at hi
    rcases hi with hi | hi
    · exact Element.deepcopy_ids_ge e n i hi
    · have h1 := Element.deepcopy_counter_le e n
      have h2 := ElemList.deepcopyList_ids_ge tl (Element.deepcopy n e).2 i hi
      omega

end

theorem deepcopyPages_counter_le (l : List Element) :
    ∀ n, n ≤ (deepcopyPages n l).2 := by
  induction l with
  | nil => intro n; simp [deepcopyPages]
  | cons e tl ih =>
    intro n
    have h1 := Element.deepcopy_counter_le e n
    have h2 := ih (Element.deepcopy n e).2
    simp only [deepcopyPages]
    omega

theorem deepcopyPages_erase (l : List Element) :
    ∀ n, pagesErase (deepcopyPages n l).1 = pagesErase l := by
  induction l with
  | nil => intro n; rfl
  | cons e tl ih =>
    intro n
    simp only [deepcopyPages, pagesErase, List.map_cons]
    rw [Element.deepcopy_erase e n]
    have := ih (Element.deepcopy n e).2
    simpa [pagesErase] using this

theorem deepcopyPages_ids_ge (l : List Element) :
    ∀ n i, i ∈ pagesIds (deepcopyPages n l).1 → n ≤ i := by
  induction l with
  | nil => intro n i hi; simp [deepcopyPages, pagesIds] at hi
  | cons e tl ih =>
    intro n i hi
    simp only [deepcopyPages, pagesIds, List.mem_append] at hi
    rcases hi with hi | hi
    · exact Element.deepcopy_ids_ge e n i hi
    · have h1 := Element.deepcopy_counter_le e n
      have h2 := ih (Element.deepcopy n e).2 i hi
      omega

/-! ## Zip archives (model of `zipfile`) -/

/-- Byte strings (one `Nat` per byte). -/
abbrev Bytes := List Nat

/-- Metadata of a zip member as carried by a `zipfile.ZipInfo` object and
preserved by `writestr` when handed an existing `ZipInfo`: the member name,
its timestamp, its compression method and the remaining attributes
(permissions etc.), the latter two folded into opaque numbers. -/
structure ZipInfo where
  filename : String
  date_time : Nat
  compress_type : Nat
  external_attr : Nat
deriving DecidableEq

/-- One archive member: its metadata and its raw stored (compressed) bytes. -/
structure ZipEntry where
  info : ZipInfo
  stored : Bytes
deriving DecidableEq

/-- An archive is the ordered sequence of its members. -/
structure ZipArchive where
  entries : List ZipEntry
deriving DecidableEq

/-- Abstract compression codec (zlib), parameterized by the compression
method number:  `compress` is what `ZipFile.writestr` applies to the data it
is given, `decompress` is what `ZipFile.read` applies to the stored bytes. -/
structure Codec where
  compress : Nat → Bytes → Bytes
  decompress : Nat → Bytes → Bytes

/-- Round-trip law every real codec satisfies: decompressing a freshly
compressed byte string gives the original back.  (The reverse composition is
not an identity: many stored byte strings decode to the same data.) -/
def Codec.RoundTrip (c : Codec) : Prop :=
  ∀ ct b, c.decompress ct (c.compress ct b) = b

/-- Model of `ZipFile.namelist()`. -/
def ZipArchive.namelist (z : ZipArchive) : List String :=
  z.entries.map (fun e => e.info.filename)

/-- Model of the `NameToInfo` dictionary lookup behind `ZipFile.getinfo`: the
dictionary is built by inserting every entry in archive order, so for
duplicate names the last entry wins. -/
def ZipArchive.getinfo (z : ZipArchive) (name : String) : Option ZipEntry :=
  z.entries.foldl (fun acc e => if e.info.filename = name then some e else acc) none

/-- Model of `ZipFile.read(name)`: decompress the stored bytes of the entry
the name resolves to (`[]` in the unreachable missing-name case, where the
real library raises `KeyError`). -/
def ZipArchive.zread (c : Codec) (z : ZipArchive) (name : String) : Bytes :=
  match z.getinfo name with
  | some e => c.decompress e.info.compress_type e.stored
  | none => []

theorem getinfo_foldl_of_not_mem (name : String) (l : List ZipEntry)
    (hl : ∀ e ∈ l, e.info.filename ≠ name) (acc : Option ZipEntry) :
    l.foldl (fun acc e => if e.info.filename = name then some e else acc) acc = acc := by
  induction l generalizing acc with
  | nil => rfl
  | cons e tl ih =>
    have he : e.info.filename ≠ name := hl e (by simp)
    simp only [List.foldl_cons, if_neg he]
    exact ih (fun x hx => hl x (by simp [hx])) acc

theorem getinfo_foldl_unique (name : String) (l : List ZipEntry)
    (hnd : (l.map (fun e => e.info.filename)).Nodup) (x : ZipEntry) (hx : x ∈ l)
    (hname : x.info.filename = name) (acc : Option ZipEntry) :
    l.foldl (fun acc e => if e.info.filename = name then some e else acc) acc = some x := by
  induction l generalizing acc with
  | nil => simp at hx
  | cons e tl ih =>
    simp only [List.map_cons, List.nodup_cons] at hnd
    rcases List.mem_cons.mp hx with hx | hx
    · subst hx
      have hrest : ∀ y ∈ tl, y.info.filename ≠ name := by
        intro y hy hcontra
        exact hnd.1 (by rw [hname, ← hcontra]; exact List.mem_map_of_mem _ hy)
      simp only [List.foldl_cons, if_pos hname]
      exact getinfo_foldl_of_not_mem name tl hrest (some x)
    · exact ih hnd.2 hx _

/-! ## XML serialization (model of `ET.tostring(..., encoding="utf-8")`)

CPython's `ElementTree.write` omits the XML declaration when the requested
encoding is `utf-8` (or `us-ascii`/`unicode`), so `ET.tostring(root,
encoding="utf-8")` yields the bare serialized element; `create_section_hwpx`
then prepends its own declaration line. -/

/-- Model of `xml.etree.ElementTree._escape_cdata`: escape `&`, `<`, `>` in
text content.  (The sequential `str.replace` passes of CPython are equivalent
to this character-wise map because no replacement output contains a character
that a later pass rewrites.) -/
def escapeCdata : List Char → List Char
  | [] => []
  | c :: t =>
    (if c = '&' then "&amp;".toList
     else if c = '<' then "&lt;".toList
     else if c = '>' then "&gt;".toList
     else [c]) ++ escapeCdata t

/-- Model of `xml.etree.ElementTree._escape_attrib`: escape `&`, `<`, `>`,
`"` and the whitespace characters CR, LF, TAB in attribute values. -/
def escapeAttrib : List Char → List Char
  | [] => []
  | c :: t =>
    (if c = '&' then "&amp;".toList
     else if c = '<' then "&lt;".toList
     else if c = '>' then "&gt;".toList
     else if c = '"' then "&quot;".toList
     else if c = '\r' then "&#13;".toList
     else if c = '\n' then "&#10;".toList
     else if c = '\t' then "&#09;".toList
     else [c]) ++ escapeAttrib t

/-- Text written for an optional text/tail field: CPython writes
`_escape_cdata(t)` when the field is truthy and nothing otherwise; both cases
collapse to this since escaping the empty string writes nothing. -/
def escText : Option String → List Char
  | none => []
  | some s => escapeCdata s.toList

/-- Serialized attribute list: ` key="escaped-value"` for each attribute in
dictionary (insertion) order. -/
def serializeAttrs : List (String × String) → List Char
  | [] => []
  | (k, v) :: rest =>
    (' ' :: (k.toList ++ '=' :: '"' :: (escapeAttrib v.toList ++ ['"']))) ++ serializeAttrs rest

mutual

/-- Model of `_serialize_xml` on one element, excluding the trailing write of
the element's own `tail` (with default `short_empty_elements=True`): an
element with truthy text or at least one child is written as
`<tag attrs>text children</tag>`, otherwise as `<tag attrs />`. -/
def serElem : Element → List Char
  | .mk _ tg a t c _ =>
    ('<' :: (tg.toList ++ serializeAttrs a)) ++
      (if optTrue t || !c.isNil then
        '>' :: (escText t ++ serChildren c) ++ ('<' :: '/' :: (tg.toList ++ ['>']))
      else " />".toList)

/-- Serialization of a child list: each child is serialized followed by its
own escaped `tail` text, exactly as the recursive `_serialize_xml` calls do. -/
def serChildren : ElemList → List Char
  | .nil => []
  | .cons e tl => (serElem e ++ escText e.tail) ++ serChildren tl

end

/-- Model of `ET.tostring(root, encoding="utf-8", method="xml")`: the
serialized root element followed by its escaped `tail` (no XML declaration,
see above). -/
def ET_tostring (root : Element) : List Char :=
  serElem root ++ escText root.tail

/-- Encoding of text to bytes; `Char.toNat` is injective, so byte-level
equality and inequality are faithfully preserved. -/
def strBytes (l : List Char) : Bytes := l.map Char.toNat

/-- Characters of the XML declaration line that `create_section_hwpx`
prepends: `<?xml version="1.0" encoding="utf-8"?>\n`. -/
def xmlDeclChars : List Char := "<?xml version=\"1.0\" encoding=\"utf-8\"?>\n".toList

/-- Model of the replacement content bytes built in `create_section_hwpx`:
`b'<?xml version="1.0" encoding="utf-8"?>\n' + ET.tostring(root, "utf-8")`. -/
def xml_content (t : ElementTree) : Bytes :=
  strBytes (xmlDeclChars ++ ET_tostring t.getroot)

/-! ## XML well-formedness

The predicates below formalize (a faithful fragment of) the W3C XML grammar:
`WFDocument s` states that `s` is an XML declaration followed by a
well-formed element and trailing whitespace.  Every production used is a
restriction of the corresponding production of the XML specification, so
membership soundly implies well-formedness. -/

/-- Character allowed in an XML document (production `Char`). -/
def isXmlChar (ch : Char) : Bool :=
  ch = '\t' || ch = '\n' || ch = '\r'
  || (0x20 ≤ ch.toNat && ch.toNat ≤ 0xD7FF)
  || (0xE000 ≤ ch.toNat && ch.toNat ≤ 0xFFFD)
  || (0x10000 ≤ ch.toNat && ch.toNat ≤ 0x10FFFF)

/-- XML whitespace (production `S`). -/
def isXmlWs (ch : Char) : Bool :=
  ch = ' ' || ch = '\t' || ch = '\n' || ch = '\r'

/-- Start character of an XML name (ASCII fragment of `NameStartChar`). -/
def isNameStartChar (ch : Char) : Bool :=
  ch.isAlpha || ch = '_' || ch = ':'

/-- Continuation character of an XML name (ASCII fragment of `NameChar`). -/
def isNameChar (ch : Char) : Bool :=
  isNameStartChar ch || ch.isDigit || ch = '-' || ch = '.'

/-- Well-formed XML name (production `Name`). -/
def isNameB : List Char → Bool
  | [] => false
  | c :: cs => isNameStartChar c && cs.all isNameChar

/-- Entity references allowed by this fragment inside character data. -/
def textEntities : List (List Char) :=
  ["&amp;".toList, "&lt;".toList, "&gt;".toList]

/-- Entity and character references allowed inside attribute values. -/
def attrEntities : List (List Char) :=
  ["&amp;".toList, "&lt;".toList, "&gt;".toList, "&quot;".toList,
   "&#13;".toList, "&#10;".toList, "&#09;".toList]

/-- Well-formed character data (production `CharData` with references):
raw characters other than `<`, `&`, `>` interleaved with entity references. -/
inductive WFText : List Char → Prop
  | nil : WFText []
  | raw {c t} : isXmlChar c = true → c ≠ '<' → c ≠ '&' → c ≠ '>' →
      WFText t → WFText (c :: t)
  | ent {e t} : e ∈ textEntities → WFText t → WFText (e ++ t)

/-- Well-formed double-quoted attribute value body (production `AttValue`). -/
inductive WFAttrVal : List Char → Prop
  | nil : WFAttrVal []
  | raw {c t} : isXmlChar c = true → c ≠ '<' → c ≠ '&' → c ≠ '>' → c ≠ '"' →
      c ≠ '\r' → c ≠ '\n' → c ≠ '\t' → WFAttrVal t → WFAttrVal (c :: t)
  | ent {e t} : e ∈ attrEntities → WFAttrVal t → WFAttrVal (e ++ t)

/-- Well-formed serialized attribute list carrying the list of attribute
names used so far; names must be pairwise distinct (XML well-formedness
constraint "Unique Att Spec"). -/
inductive WFAttrs : List Char → List String → Prop
  | nil : WFAttrs [] []
  | cons {k : String} {v rest : List Char} {names : List String} :
      isNameB k.toList = true → WFAttrVal v → k ∉ names → WFAttrs rest names →
      WFAttrs ((' ' :: (k.toList ++ '=' :: '"' :: (v ++ ['"']))) ++ rest) (k :: names)

mutual

/-- Well-formed serialized element (productions `element`, `EmptyElemTag`,
`STag`/`ETag` with matching names). -/
inductive WFElement : List Char → Prop
  | selfClose {n attrs : List Char} {names : List String} :
      isNameB n = true → WFAttrs attrs names →
      WFElement (('<' :: (n ++ attrs)) ++ " />".toList)
  | node {n attrs body : List Char} {names : List String} :
      isNameB n = true → WFAttrs attrs names → WFContent body →
      WFElement (('<' :: (n ++ attrs)) ++ '>' :: body ++ ('<' :: '/' :: (n ++ ['>'])))

/-- Well-formed element content (production `content`): character data and
child elements interleaved. -/
inductive WFContent : List Char → Prop
  | nil : WFContent []
  | text {t rest} : WFText t → WFContent rest → WFContent (t ++ rest)
  | elem {e rest} : WFElement e → WFContent rest → WFContent (e ++ rest)

end

/-- Well-formed XML document with an explicit UTF-8 XML declaration header
(production `document`, with trailing `Misc` restricted to whitespace). -/
def WFDocument (s : List Char) : Prop :=
  ∃ e w, WFElement e ∧ (∀ c ∈ w, isXmlWs c = true) ∧ s = xmlDeclChars ++ e ++ w

/-! ## Well-formedness of the serializer output -/

/-- Check that the attribute keys of a Python dict are pairwise distinct
(automatically true for `Element.attrib`, which is a dict). -/
def keysNodupB : List (String × String) → Bool
  | [] => true
  | a :: rest => !(rest.any (fun b => b.1 == a.1)) && keysNodupB rest

/-- Check that an optional text field consists of XML characters only. -/
def optXmlB : Option String → Bool
  | none => true
  | some s => s.toList.all isXmlChar

mutual

/-- Structural validity of an element as XML data: valid tag name, valid and
pairwise-distinct attribute names, XML characters in attribute values and in
text/tail fields, recursively for all children.  This formalizes the spec's
Content Tree invariant ("the tree is well-formed XML"): every tree obtained
by parsing an XML document satisfies it. -/
def validElemB : Element → Bool
  | .mk _ tg a t c tl =>
    isNameB tg.toList
    && a.all (fun kv => isNameB kv.1.toList && kv.2.toList.all isXmlChar)
    && keysNodupB a
    && optXmlB t && optXmlB tl
    && validListB c

def validListB : ElemList → Bool
  | .nil => true
  | .cons e tl => validElemB e && validListB tl

end

theorem wfText_escapeCdata (l : List Char) (hl : ∀ c ∈ l, isXmlChar c = true) :
    WFText (escapeCdata l) := by
  induction l with
  | nil => exact WFText.nil
  | cons c t ih =>
    have hc : isXmlChar c = true := hl c (by simp)
    have ht : WFText (escapeCdata t) := ih (fun x hx => hl x (by simp [hx]))
    by_cases h1 : c = '&'
    · simpa [escapeCdata, h1] using WFText.ent (e := "&amp;".toList) (by simp [textEntities]) ht
    · by_cases h2 : c = '<'
      · simpa [escapeCdata, h1, h2] using
          WFText.ent (e := "&lt;".toList) (by simp [textEntities]) ht
      · by_cases h3 : c = '>'
        · simpa [escapeCdata, h1, h2, h3] using
            WFText.ent (e := "&gt;".toList) (by simp [textEntities]) ht
        · simpa [escapeCdata, h1, h2, h3] using WFText.raw hc h2 h1 h3 ht

theorem wfText_escText (t : Option String) (ht : optXmlB t = true) :
    WFText (escText t) := by
  cases t with
  | none => exact WFText.nil
  | some s =>
    simp only [optXmlB, List.all_eq_true] at ht
    exact wfText_escapeCdata s.toList (fun c hc => ht c hc)

theorem wfAttrVal_escapeAttrib (l : List Char) (hl : ∀ c ∈ l, isXmlChar c = true) :
    WFAttrVal (escapeAttrib l) := by
  induction l with
  | nil => exact WFAttrVal.nil
  | cons c t ih =>
    have hc : isXmlChar c = true := hl c (by simp)
    have ht : WFAttrVal (escapeAttrib t) := ih (fun x hx => hl x (by simp [hx]))
    by_cases h1 : c = '&'
    · simpa [escapeAttrib, h1] using
        WFAttrVal.ent (e := "&amp;".toList) (by simp [attrEntities]) ht
    · by_cases h2 : c = '<'
      · simpa [escapeAttrib, h1, h2] using
          WFAttrVal.ent (e := "&lt;".toList) (by simp [attrEntities]) ht
      · by_cases h3 : c = '>'
        · simpa [escapeAttrib, h1, h2, h3] using
            WFAttrVal.ent (e := "&gt;".toList) (by simp [attrEntities]) ht
        · by_cases h4 : c = '"'
          · simpa [escapeAttrib, h1, h2, h3, h4] using
              WFAttrVal.ent (e := "&quot;".toList) (by simp [attrEntities]) ht
          · by_cases h5 : c = '\r'
            · simpa [escapeAttrib, h1, h2, h3, h4, h5] using
                WFAttrVal.ent (e := "&#13;".toList) (by simp [attrEntities]) ht
            · by_cases h6 : c = '\n'
              · simpa [escapeAttrib, h1, h2, h3, h4, h5, h6] using
                  WFAttrVal.ent (e := "&#10;".toList) (by simp [attrEntities]) ht
              · by_cases h7 : c = '\t'
                · simpa [escapeAttrib, h1, h2, h3, h4, h5, h6, h7] using
                    WFAttrVal.ent (e := "&#09;".toList) (by simp [attrEntities]) ht
                · simpa [escapeAttrib, h1, h2, h3, h4, h5, h6, h7] using
                    WFAttrVal.raw hc h2 h1 h3 h4 h5 h6 h7 ht

theorem wfAttrs_serializeAttrs (a : List (String × String))
    (ha : ∀ kv ∈ a, isNameB kv.1.toList = true ∧ ∀ c ∈ kv.2.toList, isXmlChar c = true)
    (hnd : keysNodupB a = true) :
    WFAttrs (serializeAttrs a) (a.map (fun kv => kv.1)) := by
  induction a with
  | nil => exact WFAttrs.nil
  | cons kv rest ih =>
    obtain ⟨k, v⟩ := kv
    simp only [keysNodupB, Bool.and_eq_true, Bool.not_eq_true', List.any_eq_false] at hnd
    have hk : isNameB k.toList = true := (ha (k, v) (by simp)).1
    have hv : WFAttrVal (escapeAttrib v.toList) :=
      wfAttrVal_escapeAttrib v.toList (ha (k, v) (by simp)).2
    have hnotin : k ∉ rest.map (fun kv => kv.1) := by
      intro hmem
      rcases List.mem_map.mp hmem with ⟨b, hb, hbk⟩
      have := hnd.1 b hb
      simp [hbk] at this
    have hrest : WFAttrs (serializeAttrs rest) (rest.map (fun kv => kv.1)) :=
      ih (fun x hx => ha x (by simp [hx])) hnd.2
    simpa [serializeAttrs] using WFAttrs.cons hk hv hnotin hrest

mutual

theorem wfElement_serElem : (e : Element) → validElemB e = true → WFElement (serElem e)
  | .mk i tg a t c tl, h => by
    simp only [validElemB, Bool.and_eq_true] at h
    obtain ⟨⟨⟨⟨⟨htag, hattrs⟩, hnd⟩, htext⟩, _⟩, hchildren⟩ := h
    have hattrs' : ∀ kv ∈ a, isNameB kv.1.toList = true ∧
        ∀ ch ∈ kv.2.toList, isXmlChar ch = true := by
      intro kv hkv
      have := (List.all_eq_true.mp hattrs) kv hkv
      simp only [Bool.and_eq_true, List.all_eq_true] at this
      exact ⟨this.1, this.2⟩
    have hwfa : WFAttrs (serializeAttrs a) (a.map (fun kv => kv.1)) :=
      wfAttrs_serializeAttrs a hattrs' hnd
    by_cases hb : optTrue t || !c.isNil
    · have hbody : WFContent (escText t ++ serChildren c) :=
        WFContent.text (wfText_escText t htext) (wfContent_serChildren c hchildren)
      have := WFElement.node (n := tg.toList) htag hwfa hbody
      simpa [serElem, hb] using this
    · have := WFElement.selfClose (n := tg.toList) htag hwfa
      simpa [serElem, hb] using this

theorem wfContent_serChildren : (l : ElemList) → validListB l = true → WFContent (serChildren l)
  | .nil, _ => by simpa [serChildren] using WFContent.nil
  | .cons e tl, h => by
    simp only [validListB, Bool.and_eq_true] at h
    have htail : optXmlB e.tail = true := by
      cases e with
      | mk i tg a t c etl =>
        have := h.1
        simp only [validElemB, Bool.and_eq_true] at this
        simpa [Element.tail] using this.1.2
    have h1 : WFElement (serElem e) := wfElement_serElem e h.1
    have h2 : WFText (escText e.tail) := wfText_escText e.tail htail
    have h3 : WFContent (serChildren tl) := wfContent_serChildren tl h.2
    simpa [serChildren, List.append_assoc] using
      WFContent.elem h1 (WFContent.text h2 h3)

end

/-- Well-formedness of the full replacement content produced by
`create_section_hwpx` for a structurally valid tree whose root has no tail
text: an XML declaration followed by a well-formed element. -/
theorem wfDocument_xml_content (t : ElementTree)
    (hvalid : validElemB t.getroot = true) (htail : t.getroot.tail = none) :
    WFDocument (xmlDeclChars ++ ET_tostring t.getroot) := by
  refine ⟨serElem t.getroot, [], wfElement_serElem t.getroot hvalid, by simp, ?_⟩
  simp [ET_tostring, htail, escText]

/-! ## Archive content accessor (`extract_hwpx_xml`) -/

/-- Model of the Python exception values flowing out of `extract_hwpx_xml`:
the `FileNotFoundError` raised for a missing content member, the
`xml.etree.ElementTree.ParseError` raised by `ET.parse`, and the generic
`Exception` that the function's `except` clause wraps them in.  `context`
models Python's implicit exception chaining (`__context__`), which is set on
the wrapping exception automatically when `raise` occurs inside `except`. -/
inductive PyExc where
  | fileNotFoundError (msg : String)
  | parseError (msg : String)
  | exception (msg : String) (context : Option PyExc)

/-- Model of `str(e)` on an exception: its message. -/
def PyExc.pyStr : PyExc → String
  | .fileNotFoundError m => m
  | .parseError m => m
  | .exception m _ => m

/-- Wrapping performed by the `except Exception as e` clause of
`extract_hwpx_xml`: a generic `Exception` whose message embeds `str(e)` and
whose `__context__` is the original exception. -/
def pyWrap (e : PyExc) : PyExc :=
  .exception ("파일 열기/파싱 중 오류 발생: " ++ e.pyStr) (some e)

/-- The fixed internal content path `'Contents/section0.xml'`. -/
def xmlPathConst : String := "Contents/section0.xml"

/-- Message of the `FileNotFoundError` raised when the content member is
missing (quotation marks around the path written as `\x27`). -/
def missingMemberMsg : String :=
  "\x27" ++ xmlPathConst ++ "\x27 파일을 찾을 수 없습니다. 파일 구조를 확인해주세요."

/-- Model of `extract_hwpx_xml(file_path)` on an already-opened archive.  The
XML parser (expat) is an abstract parameter `parse`; a parse failure carries
the parser's message.  On success the parsed tree and the content path are
returned; both failure modes are wrapped by the function's `except` clause. -/
def extract_hwpx_xml (c : Codec) (parse : Bytes → Except String ElementTree)
    (z : ZipArchive) : Except PyExc (ElementTree × String) :=
  let xml_path := xmlPathConst
  if xml_path ∈ z.namelist then
    match parse (z.zread c xml_path) with
    | .ok tree => .ok (tree, xml_path)
    | .error m => .error (pyWrap (.parseError m))
  else
    .error (pyWrap (.fileNotFoundError missingMemberMsg))

/-! ## Section tree builder and archive rewriter -/

/-- Model of `create_section_tree(original_tree, section_pages)`: a fresh root
element carrying the original root's tag and attributes (`ET.Element`
initializes `text`/`tail` to `None`), with a deep copy of each given page
appended in order.  `fresh` is the allocation counter for new object
identities. -/
def create_section_tree (original_tree : ElementTree) (section_pages : List Element)
    (fresh : Nat) : ElementTree × Nat :=
  let root := original_tree.getroot
  let (copies, n') := deepcopyPages (fresh + 1) section_pages
  (⟨Element.mk fresh root.tag root.attrib none (ElemList.ofList copies) none⟩, n')

/-- Model of `create_section_hwpx(original_file, section_tree, xml_path,
output_file)`: every member of the original archive is visited in order; the
content member is replaced by the serialized section tree, every other member
is read (decompressed) and written back (re-compressed) with its original
`ZipInfo` metadata. -/
def create_section_hwpx (c : Codec) (original : ZipArchive) (section_tree : ElementTree)
    (xml_path : String) : ZipArchive :=
  ⟨original.entries.map (fun item =>
    if item.info.filename = xml_path then
      { info := item.info,
        stored := c.compress item.info.compress_type (xml_content section_tree) }
    else
      { info := item.info,
        stored := c.compress item.info.compress_type (original.zread c item.info.filename) })⟩

theorem zread_of_nodup (c : Codec) (z : ZipArchive)
    (hnd : z.namelist.Nodup) (i : Nat) (hi : i < z.entries.length) :
    z.zread c (z.entries[i].info.filename) =
      c.decompress (z.entries[i].info.compress_type) (z.entries[i].stored) := by
  have hmem : z.entries[i] ∈ z.entries := List.getElem_mem hi
  have := getinfo_foldl_unique (z.entries[i].info.filename) z.entries hnd
    (z.entries[i]) hmem rfl none
  simp [ZipArchive.zread, ZipArchive.getinfo, this]

theorem create_section_hwpx_length (c : Codec) (original : ZipArchive)
    (section_tree : ElementTree) (xml_path : String) :
    (create_section_hwpx c original section_tree xml_path).entries.length =
      original.entries.length := by
  simp [create_section_hwpx]

theorem create_section_hwpx_info (c : Codec) (original : ZipArchive)
    (section_tree : ElementTree) (xml_path : String) (i : Nat)
    (hi : i < original.entries.length) :
    ((create_section_hwpx c original section_tree xml_path).entries[i]?).map
        (fun e => e.info) = some (original.entries[i].info) := by
  simp only [create_section_hwpx, List.getElem?_map, List.getElem?_eq_getElem hi,
    Option.map_some]
  by_cases h : original.entries[i].info.filename = xml_path <;> simp [h]

theorem create_section_hwpx_other (c : Codec) (original : ZipArchive)
    (section_tree : ElementTree) (xml_path : String) (i : Nat)
    (hi : i < original.entries.length)
    (hne : original.entries[i].info.filename ≠ xml_path) (hnd : original.namelist.Nodup) :
    ((create_section_hwpx c original section_tree xml_path).entries[i]?).map
        (fun e => e.stored) =
      some (c.compress (original.entries[i].info.compress_type)
        (c.decompress (original.entries[i].info.compress_type) (original.entries[i].stored))) := by
  simp [create_section_hwpx, List.getElem?_map, List.getElem?_eq_getElem hi, hne,
    zread_of_nodup c original hnd i hi]

theorem create_section_hwpx_content (c : Codec) (original : ZipArchive)
    (section_tree : ElementTree) (xml_path : String) (i : Nat)
    (hi : i < original.entries.length)
    (heq : original.entries[i].info.filename = xml_path) :
    ((create_section_hwpx c original section_tree xml_path).entries[i]?).map
        (fun e => e.stored) =
      some (c.compress (original.entries[i].info.compress_type)
        (xml_content section_tree)) := by
  simp [create_section_hwpx, List.getElem?_map, List.getElem?_eq_getElem hi, heq]

/-! ## Split orchestration (`process_file`) -/

/-- Suffix test on strings by their character lists (model of
`str.endswith`, written so that it evaluates inside the kernel). -/
def strEndsWith (s suffix : String) : Bool :=
  decide (suffix.toList <:+ s.toList)

/-- Lower-casing a string character-wise (model of `str.lower`). -/
def strToLower (s : String) : String :=
  String.mk (s.toList.map Char.toLower)

/-- Model of `os.path.join`. -/
def pathJoin (a b : String) : String :=
  if a = "" then b else if strEndsWith a "/" then a ++ b else a ++ "/" ++ b

def extractingMsg : String := "XML 파일 추출 중..."

def splittingMsg : String := "분리 기준에 따라 페이지 분리 중..."

/-- Status message logged when no page contains the template (quotation marks
written as `\x27`). -/
def noMatchMsg (template : String) : String :=
  "분리 기준 \x27" ++ template ++ "\x27을(를) 포함하는 페이지를 찾지 못했습니다. 설정을 확인해주세요."

def foundMsg (n : Nat) : String := "총 " ++ toString n ++ "개의 구간이 발견되었습니다."

def sectionProcMsg (i : Nat) : String := "구간 " ++ toString i ++ "번 처리 중..."

def savedMsg (i : Nat) (file : String) : String :=
  "구간 " ++ toString i ++ "번이 \x27" ++ file ++ "\x27 파일로 저장되었습니다."

/-- Observable outcome of `process_file`: the log messages passed to
`log_callback` in order, whether the output directory was created
(`os.makedirs`), and the files written with their archive contents. -/
structure ProcResult where
  logs : List String
  madeDir : Bool
  writes : List (String × ZipArchive)
deriving DecidableEq

/-- Model of the `for i, section_pages in enumerate(sections, start=1)` loop:
build each section tree, rewrite the archive, record the file written.  (The
model's archive rewriting is total, so the per-section `except` branch for
write failures is not taken.) -/
def writeSectionsLoop (c : Codec) (tree : ElementTree) (input : ZipArchive)
    (xml_path output_dir : String) (i : Nat) (fresh : Nat) :
    List (List Element) → List (String × ZipArchive) × List String × Nat
  | [] => ([], [], fresh)
  | sec :: rest =>
    let st := create_section_tree tree sec fresh
    let output_file := pathJoin output_dir ("section_" ++ toString i ++ ".hwpx")
    let out := create_section_hwpx c input st.1 xml_path
    let r := writeSectionsLoop c tree input xml_path output_dir (i + 1) st.2 rest
    ((output_file, out) :: r.1, sectionProcMsg i :: savedMsg i output_file :: r.2.1, r.2.2)

/-- Model of `process_file(input_file, output_dir, template, skip_pages,
log_callback)`.  Extraction failures are logged and abort the run; an empty
section list is logged and aborts before any directory creation or write;
otherwise the output directory is created and one file per section written.
(`split_by_template` is total in the model, so its `except` branch is dead
code.) -/
def process_file (c : Codec) (parse : Bytes → Except String ElementTree)
    (input : ZipArchive) (output_dir template : String) (skip_pages fresh : Nat) :
    ProcResult :=
  match extract_hwpx_xml c parse input with
  | .error e => ⟨[extractingMsg, e.pyStr], false, []⟩
  | .ok (tree, xml_path) =>
    let sections := split_by_template tree template skip_pages
    if sections.isEmpty then
      ⟨[extractingMsg, splittingMsg, noMatchMsg template], false, []⟩
    else
      let r := writeSectionsLoop c tree input xml_path output_dir 1 fresh sections
      ⟨[extractingMsg, splittingMsg, foundMsg sections.length] ++ r.2.1, true, r.1⟩

/-! ## Merge (`merge_hwpx_files`) -/

/-- Model of `file.lower().endswith(('.hwpx', '.hwtx'))`. -/
def hasHwpxExt (name : String) : Bool :=
  strEndsWith (strToLower name) ".hwpx" || strEndsWith (strToLower name) ".hwtx"

def noFilesMsg : String := "선택된 폴더에서 HWPX/hwtx 파일을 찾지 못했습니다."

def mergeCountMsg (n : Nat) : String := "총 " ++ toString n ++ "개의 파일을 병합합니다."

def baseFailMsg (e : PyExc) : String := "기본 파일의 XML 추출에 실패했습니다: " ++ e.pyStr

def extractPageMsg (f : String) : String := f ++ " 파일에서 페이지 추출 중..."

def extractFailMsg (f : String) (e : PyExc) : String :=
  f ++ " 파일에서 XML 추출 실패: " ++ e.pyStr

def mergedSavedMsg (f : String) : String := "병합된 파일이 \x27" ++ f ++ "\x27 에 저장되었습니다."

/-- Observable outcome of `merge_hwpx_files`. -/
structure MergeResult where
  logs : List String
  madeDir : Bool
  output : Option (String × ZipArchive)

/-- Model of the page-collection loop of `merge_hwpx_files`: extract each
file's tree, deep-copy its top-level children and append them; a file whose
extraction fails is logged and skipped. -/
def mergeLoop (c : Codec) (parse : Bytes → Except String ElementTree) (n : Nat) :
    List (String × ZipArchive) → List Element × List String × Nat
  | [] => ([], [], n)
  | (fname, z) :: rest =>
    match extract_hwpx_xml c parse z with
    | .ok (tree, _) =>
      let pages := tree.getroot.children.toList
      let cp := deepcopyPages n pages
      let r := mergeLoop c parse cp.2 rest
      (cp.1 ++ r.1, extractPageMsg fname :: r.2.1, r.2.2)
    | .error _e =>
      let r := mergeLoop c parse n rest
      (r.1, extractPageMsg fname :: extractFailMsg fname _e :: r.2.1, r.2.2)

/-- Comparison of strings by their character lists; it agrees with `≤` on
`String` and evaluates inside the kernel. -/
def strLe (a b : String) : Bool := decide (a.toList ≤ b.toList)

theorem strLe_iff (a b : String) : strLe a b = true ↔ a ≤ b := by
  rw [strLe, decide_eq_true_eq, String.le_iff_toList_le]

/-- Insertion into a sorted list (auxiliary to `sortFiles`). -/
def insertSorted (x : String × ZipArchive) :
    List (String × ZipArchive) → List (String × ZipArchive)
  | [] => [x]
  | y :: rest => if strLe x.1 y.1 then x :: y :: rest else y :: insertSorted x rest

/-- Model of `files.sort()`: a stable sort by the path string (Python
compares strings lexicographically by code point, as `String.le` does). -/
def sortFiles : List (String × ZipArchive) → List (String × ZipArchive)
  | [] => []
  | x :: rest => insertSorted x (sortFiles rest)

theorem mem_insertSorted (x a : String × ZipArchive) (l : List (String × ZipArchive)) :
    a ∈ insertSorted x l ↔ a = x ∨ a ∈ l := by
  induction l with
  | nil => simp [insertSorted]
  | cons y rest ih =>
    by_cases h : strLe x.1 y.1
    · simp [insertSorted, h]
    · simp only [insertSorted, h, if_false, Bool.false_eq_true, List.mem_cons, ih]
      tauto

theorem insertSorted_pairwise (x : String × ZipArchive) (l : List (String × ZipArchive))
    (hl : List.Pairwise (fun a b => a.1 ≤ b.1) l) :
    List.Pairwise (fun a b => a.1 ≤ b.1) (insertSorted x l) := by
  induction l with
  | nil => simp [insertSorted]
  | cons y rest ih =>
    rcases List.pairwise_cons.mp hl with ⟨hy, hrest⟩
    by_cases h : strLe x.1 y.1
    · have hxy : x.1 ≤ y.1 := (strLe_iff _ _).mp h
      rw [insertSorted, if_pos h]
      refine List.pairwise_cons.mpr ⟨?_, hl⟩
      intro b hb
      rcases List.mem_cons.mp hb with hb | hb
      · subst hb; exact hxy
      · exact le_trans hxy (hy b hb)
    · have hyx : y.1 ≤ x.1 := by
        rcases le_total x.1 y.1 with hle | hle
        · exact absurd ((strLe_iff _ _).mpr hle) h
        · exact hle
      rw [insertSorted, if_neg h]
      refine List.pairwise_cons.mpr ⟨?_, ih hrest⟩
      intro b hb
      rcases (mem_insertSorted x b rest).mp hb with hb | hb
      · subst hb; exact hyx
      · exact hy b hb

theorem sortFiles_pairwise (l : List (String × ZipArchive)) :
    List.Pairwise (fun a b => a.1 ≤ b.1) (sortFiles l) := by
  induction l with
  | nil => simp [sortFiles]
  | cons x rest ih => exact insertSorted_pairwise x (sortFiles rest) ih

/-- Model of `merge_hwpx_files(input_folder, output_folder, log_callback)`:
`listing` is the directory listing (`os.listdir`, arbitrary order) as
name/archive pairs.  Candidate files are filtered by extension, joined with
the folder path and sorted; the first file donates the base tree and the
reference archive; every file's pages are deep-copied and concatenated; the
result is serialized into `merged.hwpx`. -/
def merge_hwpx_files (c : Codec) (parse : Bytes → Except String ElementTree)
    (input_folder : String) (listing : List (String × ZipArchive))
    (output_folder : String) (fresh : Nat) : MergeResult :=
  let files := (listing.filter (fun f => hasHwpxExt f.1)).map
    (fun f => (pathJoin input_folder f.1, f.2))
  if files.isEmpty then ⟨[noFilesMsg], false, none⟩
  else
    let files := sortFiles files
    match files with
    | [] => ⟨[noFilesMsg], false, none⟩
    | f0 :: _ =>
      match extract_hwpx_xml c parse f0.2 with
      | .error e => ⟨[mergeCountMsg files.length, baseFailMsg e], false, none⟩
      | .ok (base_tree, xml_path) =>
        let r := mergeLoop c parse fresh files
        let new_root := Element.mk r.2.2 base_tree.getroot.tag base_tree.getroot.attrib
          none (ElemList.ofList r.1) none
        let merged_tree : ElementTree := ⟨new_root⟩
        let output_file := pathJoin output_folder "merged.hwpx"
        let out := create_section_hwpx c f0.2 merged_tree xml_path
        ⟨mergeCountMsg files.length :: r.2.1 ++ [mergedSavedMsg output_file], true,
          some (output_file, out)⟩

theorem mergeLoop_pages_erase (c : Codec) (parse : Bytes → Except String ElementTree)
    (files : List (String × ZipArchive)) :
    ∀ n, pagesErase (mergeLoop c parse n files).1 =
      (files.map (fun fz =>
        match extract_hwpx_xml c parse fz.2 with
        | .ok (t, _) => pagesErase t.getroot.children.toList
        | .error _ => [])).flatten := by
  induction files with
  | nil => intro n; simp [mergeLoop, pagesErase]
  | cons fz rest ih =>
    intro n
    obtain ⟨fname, z⟩ := fz
    cases hex : extract_hwpx_xml c parse z with
    | ok tp =>
      obtain ⟨t, xp⟩ := tp
      have hcopies := deepcopyPages_erase t.getroot.children.toList n
      have ihn := ih (deepcopyPages n t.getroot.children.toList).2
      simp only [mergeLoop, hex, List.map_cons, List.flatten_cons, pagesErase,
        List.map_append] at hcopies ihn ⊢
      rw [hcopies, ihn]
    | error e =>
      have ihn := ih n
      simp only [mergeLoop, hex, List.map_cons, List.flatten_cons, List.nil_append,
        pagesErase] at ihn ⊢
      exact ihn

theorem mergeLoop_ids_ge (c : Codec) (parse : Bytes → Except String ElementTree)
    (files : List (String × ZipArchive)) :
    ∀ n i, i ∈ pagesIds (mergeLoop c parse n files).1 → n ≤ i := by
  induction files with
  | nil => intro n i hi; simp [mergeLoop, pagesIds] at hi
  | cons fz rest ih =>
    intro n i hi
    obtain ⟨fname, z⟩ := fz
    cases hex : extract_hwpx_xml c parse z with
    | ok tp =>
      obtain ⟨t, xp⟩ := tp
      simp only [mergeLoop, hex] at hi
      have hsplit : i ∈ pagesIds (deepcopyPages n t.getroot.children.toList).1 ∨
          i ∈ pagesIds (mergeLoop c parse (deepcopyPages n t.getroot.children.toList).2 rest).1 := by
        clear ih
        generalize (deepcopyPages n t.getroot.children.toList).1 = l1 at hi ⊢
        generalize (mergeLoop c parse _ rest).1 = l2 at hi ⊢
        induction l1 with
        | nil => right; simpa [pagesIds] using hi
        | cons e tl ihl =>
          simp only [pagesIds, List.cons_append, List.mem_append] at hi ⊢
          rcases hi with hi | hi
          · left; left; exact hi
          · rcases ihl hi with h | h
            · left; right; exact h
            · right; exact h
      rcases hsplit with h | h
      · exact deepcopyPages_ids_ge _ n i h
      · have h1 := deepcopyPages_counter_le t.getroot.children.toList n
        have h2 := ih (deepcopyPages n t.getroot.children.toList).2 i h
        omega
    | error e =>
      simp only [mergeLoop, hex] at hi
      exact ih n i hi

theorem mergeLoop_fail_logged (c : Codec) (parse : Bytes → Except String ElementTree)
    (files : List (String × ZipArchive)) :
    ∀ n, ∀ fz ∈ files, ∀ e, extract_hwpx_xml c parse fz.2 = .error e →
      extractFailMsg fz.1 e ∈ (mergeLoop c parse n files).2.1 := by
  induction files with
  | nil => intro n fz h; simp at h
  | cons hd rest ih =>
    intro n fz hfz e he
    obtain ⟨fname, z⟩ := hd
    rcases List.mem_cons.mp hfz with hfz | hfz
    · subst hfz
      simp only at he
      simp [mergeLoop, he]
    · cases hex : extract_hwpx_xml c parse z with
      | ok tp =>
        obtain ⟨t, xp⟩ := tp
        simp only [mergeLoop, hex, List.mem_cons]
        right
        exact ih _ fz hfz e he
      | error e2 =>
        simp only [mergeLoop, hex, List.mem_cons]
        right; right
        exact ih _ fz hfz e he

/-! ## Concrete instances used by witnesses and counterexamples -/

/-- Identity codec (members stored uncompressed). -/
def codecId : Codec := ⟨fun _ b => b, fun _ b => b⟩

/-- Padding codec: compression prepends a `0`, decompression drops the first
byte.  It satisfies the round-trip law, yet re-compressing decompressed data
need not reproduce the original stored bytes — exactly the freedom a real
DEFLATE encoder has. -/
def codecPad : Codec := ⟨fun _ b => 0 :: b, fun _ b => b.tail⟩

/-- Concrete page element with identity `i`, tag `p` and text `s`. -/
def pageW (i : Nat) (s : String) : Element :=
  .mk i "p" [] (some s) .nil none

/-- Concrete five-page document tree used by several witnesses. -/
def treeW : ElementTree :=
  ⟨.mk 100 "root" [] none
    (ElemList.ofList [pageW 0 "x", pageW 1 "M1", pageW 2 "a", pageW 3 "M2", pageW 4 "b"])
    none⟩

def infoW (name : String) : ZipInfo := ⟨name, 0, 8, 0⟩

/-- Concrete archive holding a resource member and a content member whose
stored bytes are `[1]`. -/
def zW : ZipArchive := ⟨[⟨infoW "res.png", [7, 7]⟩, ⟨infoW xmlPathConst, [1]⟩]⟩

/-- Concrete archive without a content member. -/
def zNoContent : ZipArchive := ⟨[⟨infoW "res.png", [7, 7]⟩]⟩

/-- Concrete archive whose content member bytes do not parse. -/
def zBadContent : ZipArchive := ⟨[⟨infoW xmlPathConst, [9]⟩]⟩

/-- Concrete single-page document trees used by the merge witness. -/
def treeA : ElementTree :=
  ⟨.mk 10 "root" [("v", "1")] none (ElemList.ofList [pageW 11 "pa"]) none⟩

def treeB : ElementTree :=
  ⟨.mk 20 "root" [] none (ElemList.ofList [pageW 21 "pb"]) none⟩

def treeC : ElementTree :=
  ⟨.mk 30 "root" [] none (ElemList.ofList [pageW 31 "pc"]) none⟩

/-- Concrete archives of the three single-page documents. -/
def zA : ZipArchive := ⟨[⟨infoW "res.png", [7, 7]⟩, ⟨infoW xmlPathConst, [2]⟩]⟩

def zB : ZipArchive := ⟨[⟨infoW xmlPathConst, [3]⟩]⟩

def zC : ZipArchive := ⟨[⟨infoW xmlPathConst, [4]⟩]⟩

/-- Concrete parser: recognizes the content bytes of the concrete archives
and fails on anything else with an expat-style message. -/
def parseW : Bytes → Except String ElementTree :=
  fun b =>
    if b = [1] then .ok treeW
    else if b = [2] then .ok treeA
    else if b = [3] then .ok treeB
    else if b = [4] then .ok treeC
    else .error "syntax error: line 1, column 0"

/-! ## Claims -/

/-- C2: for every content tree, marker string and non-negative skip count,
`split_by_template` partitions the input: the first `skip_count` pages, the
pages dropped before the first marker match, and the pages of the returned
sections, concatenated in order, are exactly the root's children; and (for
distinct pages, as distinct Python objects are) no page occurs in two
sections. -/
theorem claim_C2 (tree : ElementTree) (template : String) (skip_count : Nat) :
    (tree.getroot.children.toList).take skip_count ++
      ((tree.getroot.children.toList).drop skip_count).takeWhile
        (fun pg => !containsTemplate template pg) ++
      (split_by_template tree template skip_count).flatten =
      tree.getroot.children.toList
    ∧ ((tree.getroot.children.toList).Nodup →
        List.Pairwise List.Disjoint (split_by_template tree template skip_count)) := by
  constructor
  · rw [split_by_template_flatten, List.append_assoc, List.takeWhile_append_dropWhile,
      List.take_append_drop]
  · intro hnd
    have hsub : (split_by_template tree template skip_count).flatten.Sublist
        (tree.getroot.children.toList) := by
      rw [split_by_template_flatten]
      exact ((List.dropWhile_suffix _).sublist).trans ((List.drop_suffix _ _).sublist)
    exact (List.nodup_flatten.mp (hsub.nodup hnd)).2

/-- Witness for C2 at the concrete five-page tree. -/
theorem claim_C2_witness :
    (treeW.getroot.children.toList).Nodup ∧
      List.Pairwise List.Disjoint (split_by_template treeW "M" 1) :=
  ⟨by decide, (claim_C2 treeW "M" 1).2 (by decide)⟩

/-- C4: for a root with exactly five children `P0..P4`, `skip_count = 1` and a
marker contained in the text of `P1` and `P3` only, the returned sections are
exactly `[[P1, P2], [P3, P4]]` (so `P0` is in no section). -/
theorem claim_C4 (tree : ElementTree) (marker : String) (P0 P1 P2 P3 P4 : Element)
    (hch : tree.getroot.children.toList = [P0, P1, P2, P3, P4])
    (h1 : containsTemplate marker P1 = true)
    (h3 : containsTemplate marker P3 = true)
    (_h0 : containsTemplate marker P0 = false)
    (h2 : containsTemplate marker P2 = false)
    (h4 : containsTemplate marker P4 = false) :
    split_by_template tree marker 1 = [[P1, P2], [P3, P4]] := by
  rw [split_by_template_eq_go, hch]
  simp [splitGo, h1, h2, h3, h4]

/-- Witness for C4 at the concrete five-page tree with marker `M`. -/
theorem claim_C4_witness :
    split_by_template treeW "M" 1 =
      [[pageW 1 "M1", pageW 2 "a"], [pageW 3 "M2", pageW 4 "b"]] :=
  claim_C4 treeW "M" (pageW 0 "x") (pageW 1 "M1") (pageW 2 "a") (pageW 3 "M2") (pageW 4 "b")
    (by decide) (by decide) (by decide) (by decide) (by decide) (by decide)

/-- C9: every returned section is non-empty, its first page's concatenated
descendant text contains the marker, and no later page of the section
contains the marker. -/
theorem claim_C9 (tree : ElementTree) (template : String) (skip_count : Nat) :
    ∀ s ∈ split_by_template tree template skip_count,
      s ≠ [] ∧ (∀ h, s.head? = some h → containsTemplate template h = true) ∧
        (∀ pg ∈ s.tail, containsTemplate template pg = false) := by
  intro s hs
  rw [split_by_template_eq_go] at hs
  exact splitGo_sections_ok _ _ [] (Or.inl rfl) s hs

/-- Witness for C9 at the concrete five-page tree and its first section. -/
theorem claim_C9_witness :
    ([pageW 1 "M1", pageW 2 "a"] : List Element) ≠ [] ∧
      (∀ h, ([pageW 1 "M1", pageW 2 "a"] : List Element).head? = some h →
        containsTemplate "M" h = true) ∧
      (∀ pg ∈ ([pageW 1 "M1", pageW 2 "a"] : List Element).tail,
        containsTemplate "M" pg = false) :=
  claim_C9 treeW "M" 1 [pageW 1 "M1", pageW 2 "a"] (by decide)

/-- C10: with the empty marker (which the split-policy precondition excludes
but the code does not reject), every page after the skipped prefix counts as
containing the marker, so the result is one singleton section per remaining
page. -/
theorem claim_C10 (tree : ElementTree) (skip_count : Nat) :
    split_by_template tree "" skip_count =
      ((tree.getroot.children.toList).drop skip_count).map (fun pg => [pg]) := by
  rw [split_by_template_eq_go]
  have hall : ∀ pg ∈ (tree.getroot.children.toList).drop skip_count,
      containsTemplate "" pg = true := by
    intro pg _hpg
    have hempty : ("" : String).toList = ([] : List Char) := rfl
    simp [containsTemplate, hempty, List.nil_infix]
  rw [splitGo_all_true _ _ hall []]
  simp

/-- C5: the accessor fails for a missing content member with the wrapped
`FileNotFoundError` and for unparsable content bytes with the wrapped
`ParseError`; the two error values are distinct (their chained `__context__`
exceptions have different types, and the embedded messages differ), so a
caller can report the two conditions differently — as `process_file` does by
logging `str(e)`. -/
theorem claim_C5 (c : Codec) (parse : Bytes → Except String ElementTree)
    (z1 z2 : ZipArchive)
    (hmiss : xmlPathConst ∉ z1.namelist)
    (hmem : xmlPathConst ∈ z2.namelist) (m : String)
    (hparse : parse (z2.zread c xmlPathConst) = .error m) :
    extract_hwpx_xml c parse z1 = .error (pyWrap (.fileNotFoundError missingMemberMsg)) ∧
    extract_hwpx_xml c parse z2 = .error (pyWrap (.parseError m)) ∧
    pyWrap (.fileNotFoundError missingMemberMsg) ≠ pyWrap (.parseError m) := by
  refine ⟨?_, ?_, ?_⟩
  · simp [extract_hwpx_xml, hmiss]
  · simp [extract_hwpx_xml, hmem, hparse]
  · intro hcontra
    simp [pyWrap] at hcontra

/-- Witness for C5 at a concrete archive without the content member and a
concrete archive with unparsable content bytes. -/
theorem claim_C5_witness :
    extract_hwpx_xml codecId parseW zNoContent =
        .error (pyWrap (.fileNotFoundError missingMemberMsg)) ∧
      extract_hwpx_xml codecId parseW zBadContent =
        .error (pyWrap (.parseError "syntax error: line 1, column 0")) ∧
      pyWrap (.fileNotFoundError missingMemberMsg) ≠
        pyWrap (.parseError "syntax error: line 1, column 0") :=
  claim_C5 codecId parseW zNoContent zBadContent (by decide) (by decide)
    "syntax error: line 1, column 0" rfl

/-- C6: when no page after the skipped prefix contains the marker,
segmentation returns no sections, `process_file` creates no directory and
writes no files, and the condition is reported through the log callback as
the no-match status message (the model's `process_file` is a total function,
so no exception escapes). -/
theorem claim_C6 (c : Codec) (parse : Bytes → Except String ElementTree)
    (z : ZipArchive) (output_dir template : String) (skip_pages fresh : Nat)
    (tree : ElementTree) (xml_path : String)
    (hex : extract_hwpx_xml c parse z = .ok (tree, xml_path))
    (hnone : ∀ pg ∈ (tree.getroot.children.toList).drop skip_pages,
        containsTemplate template pg = false) :
    split_by_template tree template skip_pages = [] ∧
      (process_file c parse z output_dir template skip_pages fresh).writes = [] ∧
      (process_file c parse z output_dir template skip_pages fresh).madeDir = false ∧
      noMatchMsg template ∈ (process_file c parse z output_dir template skip_pages fresh).logs := by
  have hempty : split_by_template tree template skip_pages = [] := by
    rw [split_by_template_eq_go]
    exact splitGo_none_true _ _ hnone
  refine ⟨hempty, ?_, ?_, ?_⟩ <;> simp [process_file, hex, hempty]

/-- Witness for C6 at the concrete archive and a marker occurring nowhere. -/
theorem claim_C6_witness :
    split_by_template treeW "Z" 0 = [] ∧
      (process_file codecId parseW zW "out" "Z" 0 1000).writes = [] ∧
      (process_file codecId parseW zW "out" "Z" 0 1000).madeDir = false ∧
      noMatchMsg "Z" ∈ (process_file codecId parseW zW "out" "Z" 0 1000).logs :=
  claim_C6 codecId parseW zW "out" "Z" 0 1000 treeW xmlPathConst rfl (by decide)

theorem create_section_hwpx_entry_other (c : Codec) (original : ZipArchive)
    (section_tree : ElementTree) (xml_path : String) (i : Nat)
    (hi : i < original.entries.length)
    (hne : original.entries[i].info.filename ≠ xml_path) (hnd : original.namelist.Nodup) :
    (create_section_hwpx c original section_tree xml_path).entries[i]? =
      some ⟨original.entries[i].info,
        c.compress (original.entries[i].info.compress_type)
          (c.decompress (original.entries[i].info.compress_type)
            (original.entries[i].stored))⟩ := by
  simp [create_section_hwpx, List.getElem?_map, List.getElem?_eq_getElem hi, hne,
    zread_of_nodup c original hnd i hi]

/-- C3: for every replacement content tree — a structurally valid XML tree
(the spec's Content Tree invariant) whose root carries no tail text — the
replacement member bytes built by `create_section_hwpx` are a well-formed XML
document, they begin with the explicit UTF-8 XML declaration header, and the
content member keeps the reference entry's name and remaining metadata. -/
theorem claim_C3 (c : Codec) (original : ZipArchive) (t : ElementTree) (xml_path : String)
    (hvalid : validElemB t.getroot = true) (htail : t.getroot.tail = none) :
    WFDocument (xmlDeclChars ++ ET_tostring t.getroot) ∧
    xml_content t = strBytes xmlDeclChars ++ strBytes (ET_tostring t.getroot) ∧
    ∀ i, ∀ hi : i < original.entries.length,
      original.entries[i].info.filename = xml_path →
      ((create_section_hwpx c original t xml_path).entries[i]?).map (fun e => e.info) =
          some (original.entries[i].info) ∧
      ((create_section_hwpx c original t xml_path).entries[i]?).map (fun e => e.stored) =
          some (c.compress (original.entries[i].info.compress_type) (xml_content t)) := by
  refine ⟨wfDocument_xml_content t hvalid htail, by simp [xml_content, strBytes], ?_⟩
  intro i hi heq
  exact ⟨create_section_hwpx_info c original t xml_path i hi,
    create_section_hwpx_content c original t xml_path i hi heq⟩

/-- Witness for C3 at the concrete five-page tree and archive. -/
theorem claim_C3_witness :
    WFDocument (xmlDeclChars ++ ET_tostring treeW.getroot) ∧
    xml_content treeW = strBytes xmlDeclChars ++ strBytes (ET_tostring treeW.getroot) ∧
    ∀ i, ∀ hi : i < zW.entries.length,
      zW.entries[i].info.filename = xmlPathConst →
      ((create_section_hwpx codecId zW treeW xmlPathConst).entries[i]?).map (fun e => e.info) =
          some (zW.entries[i].info) ∧
      ((create_section_hwpx codecId zW treeW xmlPathConst).entries[i]?).map (fun e => e.stored) =
          some (codecId.compress (zW.entries[i].info.compress_type) (xml_content treeW)) :=
  claim_C3 codecId zW treeW xmlPathConst (by decide) rfl

/-- C1 counterexample: with a round-trip codec under which re-compression is
not the identity on stored bytes (as for a real DEFLATE encoder) and an
archive with distinct member names, the rewritten archive's first member —
not the content member — has stored bytes different from the reference
member's raw stored bytes: `create_section_hwpx` decompresses and
re-compresses every copied member instead of copying raw bytes. -/
theorem claim_C1_counterexample :
    Codec.RoundTrip codecPad ∧
    zW.namelist.Nodup ∧
    (zW.entries.head?.map (fun e => e.info.filename)) = some "res.png" ∧
    "res.png" ≠ xmlPathConst ∧
    ((create_section_hwpx codecPad zW treeW xmlPathConst).entries.head?.map
        (fun e => e.stored)) ≠
      (zW.entries.head?.map (fun e => e.stored)) :=
  ⟨fun _ _ => rfl, by decide, by decide, by decide, by decide⟩

/-- C1 (amended): for every round-trip codec and reference archive (member
names distinct, as the spec's Archive data model requires), the rewritten
archive has the same number of members in the same order with the same names
and metadata, and every member other than the content member has byte-
identical content (decompressed bytes); the raw stored bytes, however, are
re-compressed rather than copied, so they are preserved as stored only up to
a decompress/re-compress round trip. -/
theorem claim_C1 (c : Codec) (hrt : c.RoundTrip) (original : ZipArchive)
    (hnd : original.namelist.Nodup) (t : ElementTree) (xml_path : String) :
    (create_section_hwpx c original t xml_path).entries.length = original.entries.length ∧
    ∀ i, ∀ hi : i < original.entries.length,
      ((create_section_hwpx c original t xml_path).entries[i]?).map (fun e => e.info) =
        some (original.entries[i].info) ∧
      (original.entries[i].info.filename ≠ xml_path →
        ((create_section_hwpx c original t xml_path).entries[i]?).map
            (fun e => c.decompress e.info.compress_type e.stored) =
          some (c.decompress (original.entries[i].info.compress_type)
            (original.entries[i].stored))) := by
  refine ⟨create_section_hwpx_length c original t xml_path, ?_⟩
  intro i hi
  refine ⟨create_section_hwpx_info c original t xml_path i hi, ?_⟩
  intro hne
  rw [create_section_hwpx_entry_other c original t xml_path i hi hne hnd]
  simp [hrt _ _]

/-- Witness for the amended C1 at the identity codec and concrete archive. -/
theorem claim_C1_witness :
    (create_section_hwpx codecId zW treeW xmlPathConst).entries.length =
        zW.entries.length ∧
      ∀ i, ∀ hi : i < zW.entries.length,
        ((create_section_hwpx codecId zW treeW xmlPathConst).entries[i]?).map
            (fun e => e.info) = some (zW.entries[i].info) ∧
        (zW.entries[i].info.filename ≠ xmlPathConst →
          ((create_section_hwpx codecId zW treeW xmlPathConst).entries[i]?).map
              (fun e => codecId.decompress e.info.compress_type e.stored) =
            some (codecId.decompress (zW.entries[i].info.compress_type)
              (zW.entries[i].stored))) :=
  claim_C1 codecId (fun _ _ => rfl) zW (by decide) treeW xmlPathConst

/-- C8: when the folder listing contains no file with a recognized extension,
the merge reports the empty-input condition through the log callback, returns
before creating the output directory and produces no output file. -/
theorem claim_C8 (c : Codec) (parse : Bytes → Except String ElementTree)
    (input_folder output_folder : String) (listing : List (String × ZipArchive))
    (fresh : Nat) (hnone : ∀ f ∈ listing, hasHwpxExt f.1 = false) :
    (merge_hwpx_files c parse input_folder listing output_folder fresh).output = none ∧
    (merge_hwpx_files c parse input_folder listing output_folder fresh).madeDir = false ∧
    (merge_hwpx_files c parse input_folder listing output_folder fresh).logs =
      [noFilesMsg] := by
  have hfilter : listing.filter (fun f => hasHwpxExt f.1) = [] := by
    rw [List.filter_eq_nil_iff]
    intro a ha
    simp [hnone a ha]
  refine ⟨?_, ?_, ?_⟩ <;> simp [merge_hwpx_files, hfilter]

/-- Witness for C8 at a one-file folder without recognized extensions. -/
theorem claim_C8_witness :
    (merge_hwpx_files codecId parseW "in" [("readme.txt", zNoContent)] "out" 1000).output =
        none ∧
      (merge_hwpx_files codecId parseW "in" [("readme.txt", zNoContent)] "out" 1000).madeDir =
        false ∧
      (merge_hwpx_files codecId parseW "in" [("readme.txt", zNoContent)] "out" 1000).logs =
        [noFilesMsg] :=
  claim_C8 codecId parseW "in" "out" [("readme.txt", zNoContent)] 1000 (by decide)

/-- C7: the merge takes the candidate files in lexicographic (path) order; if
the first file's content fails to extract the whole merge aborts with no
write; otherwise the merged pages are, structurally, the concatenation of
each successfully-extracted input's top-level children in file order (a
failing input is excluded and a warning is logged), every merged page is a
deep copy whose nodes are freshly allocated and so shared with no source
tree, and the output is the first file's archive rewritten around a root
carrying the first file's root tag and attributes, every non-content member
keeping the first file's names, metadata, order and (decompressed) content
bytes. -/
theorem claim_C7 (c : Codec) (parse : Bytes → Except String ElementTree)
    (input_folder output_folder : String) (listing : List (String × ZipArchive))
    (fresh : Nat) (f0 : String × ZipArchive) (rest : List (String × ZipArchive))
    (hfiles : sortFiles ((listing.filter (fun f => hasHwpxExt f.1)).map
        (fun f => (pathJoin input_folder f.1, f.2))) = f0 :: rest)
    (hrt : c.RoundTrip) (hndA : f0.2.namelist.Nodup)
    (hfresh : ∀ fz ∈ f0 :: rest,
      ∀ i ∈ (match extract_hwpx_xml c parse fz.2 with
        | .ok (t, _) => Element.ids t.getroot
        | .error _ => []), i < fresh) :
    List.Pairwise (fun a b : String × ZipArchive => a.1 ≤ b.1) (f0 :: rest) ∧
    (∀ e, extract_hwpx_xml c parse f0.2 = .error e →
      (merge_hwpx_files c parse input_folder listing output_folder fresh).output = none ∧
      (merge_hwpx_files c parse input_folder listing output_folder fresh).madeDir = false) ∧
    (∀ bt xp, extract_hwpx_xml c parse f0.2 = .ok (bt, xp) →
      ∃ M nroot,
        pagesErase M = ((f0 :: rest).map (fun fz =>
          match extract_hwpx_xml c parse fz.2 with
          | .ok (t, _) => pagesErase t.getroot.children.toList
          | .error _ => [])).flatten ∧
        (∀ i ∈ pagesIds M, fresh ≤ i) ∧
        (∀ fz ∈ f0 :: rest, ∀ t xp2, extract_hwpx_xml c parse fz.2 = .ok (t, xp2) →
          ∀ i ∈ pagesIds M, i ∉ Element.ids t.getroot) ∧
        (merge_hwpx_files c parse input_folder listing output_folder fresh).output =
          some (pathJoin output_folder "merged.hwpx",
            create_section_hwpx c f0.2
              ⟨Element.mk nroot bt.getroot.tag bt.getroot.attrib none
                (ElemList.ofList M) none⟩ xp) ∧
        (∀ i, ∀ hi : i < f0.2.entries.length,
          ((create_section_hwpx c f0.2
              ⟨Element.mk nroot bt.getroot.tag bt.getroot.attrib none
                (ElemList.ofList M) none⟩ xp).entries[i]?).map (fun e => e.info) =
            some (f0.2.entries[i].info) ∧
          (f0.2.entries[i].info.filename ≠ xp →
            ((create_section_hwpx c f0.2
                ⟨Element.mk nroot bt.getroot.tag bt.getroot.attrib none
                  (ElemList.ofList M) none⟩ xp).entries[i]?).map
                (fun e => c.decompress e.info.compress_type e.stored) =
              some (c.decompress (f0.2.entries[i].info.compress_type)
                (f0.2.entries[i].stored)))) ∧
        (∀ fz ∈ f0 :: rest, ∀ e, extract_hwpx_xml c parse fz.2 = .error e →
          extractFailMsg fz.1 e ∈
            (merge_hwpx_files c parse input_folder listing output_folder fresh).logs)) := by
  set pre := (listing.filter (fun f => hasHwpxExt f.1)).map
    (fun f => (pathJoin input_folder f.1, f.2)) with hpreDef
  have hpre_ne : pre.isEmpty = false := by
    cases hpre : pre with
    | nil =>
      rw [hpre] at hfiles
      simp [sortFiles] at hfiles
    | cons a l => simp
  constructor
  · have hs := sortFiles_pairwise pre
    rw [hfiles] at hs
    exact hs
  constructor
  · intro e hex
    constructor <;> simp [merge_hwpx_files, ← hpreDef, hpre_ne, hfiles, hex]
  · intro bt xp hex
    refine ⟨(mergeLoop c parse fresh (f0 :: rest)).1,
      (mergeLoop c parse fresh (f0 :: rest)).2.2, ?_, ?_, ?_, ?_, ?_, ?_⟩
    · exact mergeLoop_pages_erase c parse (f0 :: rest) fresh
    · intro i hi
      exact mergeLoop_ids_ge c parse (f0 :: rest) fresh i hi
    · intro fz hfz t xp2 hex2 i hiM hit
      have h1 : fresh ≤ i := mergeLoop_ids_ge c parse (f0 :: rest) fresh i hiM
      have h2 : i < fresh := by
        refine hfresh fz hfz i ?_
        rw [hex2]
        simpa using hit
      omega
    · simp [merge_hwpx_files, ← hpreDef, hpre_ne, hfiles, hex]
    · intro i hi
      refine ⟨create_section_hwpx_info c f0.2 _ xp i hi, ?_⟩
      intro hne2
      rw [create_section_hwpx_entry_other c f0.2 _ xp i hi hne2 hndA]
      simp [hrt _ _]
    · intro fz hfz e he
      have hmem := mergeLoop_fail_logged c parse (f0 :: rest) fresh fz hfz e he
      have hlogs : (merge_hwpx_files c parse input_folder listing output_folder fresh).logs =
          mergeCountMsg (f0 :: rest).length ::
            ((mergeLoop c parse fresh (f0 :: rest)).2.1 ++
              [mergedSavedMsg (pathJoin output_folder "merged.hwpx")]) := by
        simp [merge_hwpx_files, ← hpreDef, hpre_ne, hfiles, hex]
      rw [hlogs]
      exact List.mem_cons_of_mem _ (List.mem_append_left _ hmem)

/-- Witness for C7 at the merge of three concrete single-page documents
`a.hwpx`, `b.hwpx`, `c.hwpx` listed out of order. -/
theorem claim_C7_witness :
    ∃ M nroot,
      pagesErase M = (([("in/a.hwpx", zA), ("in/b.hwpx", zB), ("in/c.hwpx", zC)] :
        List (String × ZipArchive)).map (fun fz =>
          match extract_hwpx_xml codecId parseW fz.2 with
          | .ok (t, _) => pagesErase t.getroot.children.toList
          | .error _ => [])).flatten ∧
      (∀ i ∈ pagesIds M, 1000 ≤ i) ∧
      (∀ fz ∈ ([("in/a.hwpx", zA), ("in/b.hwpx", zB), ("in/c.hwpx", zC)] :
          List (String × ZipArchive)),
        ∀ t xp2, extract_hwpx_xml codecId parseW fz.2 = .ok (t, xp2) →
          ∀ i ∈ pagesIds M, i ∉ Element.ids t.getroot) ∧
      (merge_hwpx_files codecId parseW "in"
          [("b.hwpx", zB), ("c.hwpx", zC), ("a.hwpx", zA)] "out" 1000).output =
        some (pathJoin "out" "merged.hwpx",
          create_section_hwpx codecId zA
            ⟨Element.mk nroot treeA.getroot.tag treeA.getroot.attrib none
              (ElemList.ofList M) none⟩ xmlPathConst) ∧
      (∀ i, ∀ hi : i < zA.entries.length,
        ((create_section_hwpx codecId zA
            ⟨Element.mk nroot treeA.getroot.tag treeA.getroot.attrib none
              (ElemList.ofList M) none⟩ xmlPathConst).entries[i]?).map (fun e => e.info) =
          some (zA.entries[i].info) ∧
        (zA.entries[i].info.filename ≠ xmlPathConst →
          ((create_section_hwpx codecId zA
              ⟨Element.mk nroot treeA.getroot.tag treeA.getroot.attrib none
                (ElemList.ofList M) none⟩ xmlPathConst).entries[i]?).map
              (fun e => codecId.decompress e.info.compress_type e.stored) =
            some (codecId.decompress (zA.entries[i].info.compress_type)
              (zA.entries[i].stored)))) ∧
      (∀ fz ∈ ([("in/a.hwpx", zA), ("in/b.hwpx", zB), ("in/c.hwpx", zC)] :
          List (String × ZipArchive)),
        ∀ e, extract_hwpx_xml codecId parseW fz.2 = .error e →
          extractFailMsg fz.1 e ∈
            (merge_hwpx_files codecId parseW "in"
              [("b.hwpx", zB), ("c.hwpx", zC), ("a.hwpx", zA)] "out" 1000).logs) :=
  (claim_C7 codecId parseW "in" "out" [("b.hwpx", zB), ("c.hwpx", zC), ("a.hwpx", zA)]
      1000 ("in/a.hwpx", zA) [("in/b.hwpx", zB), ("in/c.hwpx", zC)]
      (by decide) (fun _ _ => rfl) (by decide) (by decide)).2.2 treeA xmlPathConst rfl
